import Mathlib

/-
Verification of the column-configuration store and YAML emitter of
src/src/App.js (a React data-validation configuration tool).

The stateful React component is embedded shallowly: the relevant slice of the
component state (`columnConfigs`, `availableColumns`, `configSaved`) becomes an
explicit `AppState` record, each `useCallback` handler becomes a function
`AppState → ... → AppState` (or `Option AppState` when the JS code can throw a
`TypeError` before committing a state update: `none` models the thrown
exception, `some s` models a completed `setState`).  The presentation-only
fields of the component state (`loading`, `error`, `yamlConfig`) are never read
or written by the operations under study and are omitted from the record.

JS strings are compared by `Array.prototype.sort()` using UTF-16 code-unit
order; all column names in this program are ASCII, so this coincides with the
code-point order implemented below by `lexLe`.
-/

set_option maxRecDepth 4000

/-- Lexicographic code-point comparison of character lists; models the default
JS string comparison used by `Array.prototype.sort()` (code-unit order, which
agrees with code-point order on the ASCII strings of this program). -/
def lexLe : List Char → List Char → Bool
  | [], _ => true
  | _ :: _, [] => false
  | a :: as, b :: bs =>
    if a.toNat < b.toNat then true
    else if b.toNat < a.toNat then false
    else lexLe as bs

/-- String comparison on the underlying character data. -/
def strLeB (a b : String) : Bool := lexLe a.data b.data

instance : DecidableRel (fun a b : String => strLeB a b = true) :=
  fun a b => inferInstanceAs (Decidable (strLeB a b = true))

/-- Model of `Array.prototype.sort()` on string arrays (App.js lines 143 and
188): sorts ascending by the default string comparison. -/
def jsSort (l : List String) : List String :=
  List.insertionSort (fun a b => strLeB a b = true) l

/-- Model of the TS interface `ValidationRule` (App.js lines 23-29).  `type` is
a plain string (the TS union of the four literals); the optional fields are
`Option`s, `none` standing for an absent / `undefined` field.  JS numbers for
`min`/`max` are modelled as integers (every value the UI produces and every
value in the claims is integral). -/
structure ValidationRule where
  type : String
  regex : Option String := none
  allowedValues : Option (List String) := none
  min : Option Int := none
  max : Option Int := none
  deriving DecidableEq, Repr

/-- Model of the TS interface `ColumnConfig` (App.js lines 31-34). -/
structure ColumnConfig where
  name : String
  validation : ValidationRule
  deriving DecidableEq, Repr

/-- Slice of the TS interface `AppState` (App.js lines 36-43) acted on by the
store operations.  `loading`, `error` and `yamlConfig` are presentation state
untouched by the operations modelled here and are omitted. -/
structure AppState where
  columnConfigs : List ColumnConfig
  availableColumns : List String
  configSaved : Bool
  deriving DecidableEq, Repr

/-- The hardcoded list of candidate column names of the initial state
(App.js lines 48-73), in source order.  This is the universe of column names. -/
def universeColumns : List String :=
  ["store_id",
   "zone_name",
   "machine_project_id",
   "fleet_project_id",
   "cluster_name",
   "location",
   "node_count",
   "cluster_ipv4_cidr",
   "services_ipv4_cidr",
   "external_load_balancer_ipv4_address_pools",
   "sync_repo",
   "sync_branch",
   "sync_dir",
   "secrets_project_id",
   "git_token_secrets_manager_name",
   "cluster_version",
   "maintenance_window_start",
   "maintenance_window_end",
   "maintenance_window_recurrence",
   "maintenance_exclusion_name_1",
   "maintenance_exclusion_start_1",
   "maintenance_exclusion_end_1",
   "subnet_vlans",
   "recreate_on_delete"]

/-- Model of `initialState` (App.js lines 46-78), restricted to the modelled
fields. -/
def initialState : AppState :=
  { columnConfigs := []
    availableColumns := universeColumns
    configSaved := false }

/-- Model of `addColumnConfig` (App.js lines 120-134).  If any column name is
available, the first one (`availableColumns[0]`) is claimed: a config with
default validation of type string and no other fields is appended and the name is removed via
`slice(1)`.  When no column is available the handler body is skipped entirely
(the surrounding `if` fails), so the state is unchanged. -/
def addColumnConfig (s : AppState) : AppState :=
  match s.availableColumns with
  | [] => s
  | newColumnName :: rest =>
    { s with
      columnConfigs :=
        s.columnConfigs ++ [{ name := newColumnName, validation := { type := "string" } }]
      availableColumns := rest
      configSaved := false }

/-- Model of `Array.prototype.filter` with an index-taking callback, as used in
`columnConfigs.filter((_, i) => i !== index)` (App.js line 142).  The second
argument is the index of the head of the remaining list. -/
def filterWithIndex {α : Type} (p : Nat → Bool) : List α → Nat → List α
  | [], _ => []
  | a :: as, i => if p i then a :: filterWithIndex p as (i + 1) else filterWithIndex p as (i + 1)

/-- Model of `removeColumnConfig` (App.js lines 137-148).  The JS code first
evaluates `state.columnConfigs[index].name`; for an out-of-range index this is
`undefined.name`, which throws a `TypeError` before `setState` runs — modelled
by `none`.  In range, the config at `index` (insertion order!) is dropped, its
name is appended to `availableColumns` and the result re-sorted. -/
def removeColumnConfig (s : AppState) (index : Nat) : Option AppState :=
  if h : index < s.columnConfigs.length then
    let removedColumn := (s.columnConfigs.get ⟨index, h⟩).name
    some { s with
      columnConfigs := filterWithIndex (fun i => i != index) s.columnConfigs 0
      availableColumns := jsSort (s.availableColumns ++ [removedColumn])
      configSaved := false }
  else
    none

/-- Model of TS `Partial<ValidationRule>` as it is spread in
`updateColumnConfig`.  An outer `none` means the field is absent from the
object literal (the spread leaves the old value); `some v` means the field is
present with value `v` (the spread overwrites, including the explicit
`undefined` the UI passes to clear `min`/`max`, which is `some none`). -/
structure RulePatch where
  type : Option String := none
  regex : Option (Option String) := none
  allowedValues : Option (Option (List String)) := none
  min : Option (Option Int) := none
  max : Option (Option Int) := none
  deriving DecidableEq, Repr

/-- Model of TS `Partial<ColumnConfig>` as passed to `updateColumnConfig`. -/
structure ConfigPatch where
  name : Option String := none
  validation : Option RulePatch := none
  deriving DecidableEq, Repr

/-- Model of the object spread of `newConfig.validation` (or the empty object
when absent) over the old validation rule (App.js lines 158-161): each field
present in the patch replaces the old value, each absent field is preserved. -/
def mergeValidation (old : ValidationRule) (p : RulePatch) : ValidationRule :=
  { type := p.type.getD old.type
    regex := p.regex.getD old.regex
    allowedValues := p.allowedValues.getD old.allowedValues
    min := p.min.getD old.min
    max := p.max.getD old.max }

/-- Model of `updateColumnConfig` (App.js lines 151-171).  For an out-of-range
index the JS code evaluates `updatedConfigs[index].validation` on `undefined`
and throws before the state is replaced — modelled by `none`.  In range, the
config at `index` (insertion order) is rebuilt by object spread. -/
def updateColumnConfig (s : AppState) (index : Nat) (newConfig : ConfigPatch) :
    Option AppState :=
  if h : index < s.columnConfigs.length then
    let old := s.columnConfigs.get ⟨index, h⟩
    some { s with
      columnConfigs := s.columnConfigs.set index
        { name := newConfig.name.getD old.name
          validation := mergeValidation old.validation (newConfig.validation.getD {}) }
      configSaved := false }
  else
    none

/-- The spec operation `updateValidation(index, partialRule)`: every call site
of `updateColumnConfig` in the UI passes a patch containing only `validation`
(App.js lines 329, 381, 409, 443, 471). -/
def updateValidation (s : AppState) (index : Nat) (p : RulePatch) : Option AppState :=
  updateColumnConfig s index { validation := some p }

/-- Model of `handleColumnSelect` (App.js lines 174-199), the spec operation
`renameColumn(index, newName)`.  For an out-of-range index the JS code throws
on `prevState.columnConfigs[index].name` — modelled by `none`.  In range, the
config at `index` (insertion order) is renamed to `selectedColumn`;
`availableColumns` is filtered free of `selectedColumn`, the old name is
appended, and the result re-sorted. -/
def handleColumnSelect (s : AppState) (index : Nat) (selectedColumn : String) :
    Option AppState :=
  if h : index < s.columnConfigs.length then
    let oldColumnName := (s.columnConfigs.get ⟨index, h⟩).name
    some { s with
      columnConfigs := s.columnConfigs.set index
        { s.columnConfigs.get ⟨index, h⟩ with name := selectedColumn }
      availableColumns :=
        jsSort ((s.availableColumns.filter (fun col => col != selectedColumn)) ++ [oldColumnName])
      configSaved := false }
  else
    none

instance : DecidableRel (fun a b : ColumnConfig => strLeB a.name b.name = true) :=
  fun a b => inferInstanceAs (Decidable (strLeB a.name b.name = true))

/-- Model of `sortedColumnConfigs` (App.js lines 227-229): the display order,
`[...state.columnConfigs].sort((a, b) => a.name.localeCompare(b.name))`.  For
the ASCII names of this program `localeCompare` agrees with code-point order. -/
def sortedColumnConfigs (s : AppState) : List ColumnConfig :=
  List.insertionSort (fun a b => strLeB a.name b.name = true) s.columnConfigs

/-- Model of building the JS object `config` in `generateYamlConfig`
(App.js lines 89-92): string-keyed JS objects enumerate in first-insertion
order and assigning an existing key overwrites its value in place. -/
def insertEntry : List (String × ValidationRule) → String → ValidationRule →
    List (String × ValidationRule)
  | [], k, v => [(k, v)]
  | (k0, v0) :: rest, k, v =>
    if k0 = k then (k0, v) :: rest else (k0, v0) :: insertEntry rest k v

/-- The entry list of the JS `config` object: `Object.entries(config)` after
`columnConfigs.forEach((col) => \x7b config[col.name] = col.validation; \x7d)`. -/
def toEntries (columnConfigs : List ColumnConfig) : List (String × ValidationRule) :=
  columnConfigs.foldl (fun m c => insertEntry m c.name c.validation) []

/-- Character escaping of `JSON.stringify` for string values, restricted to the
escapes that can arise here (quote and backslash; no value in this development
contains a control character). -/
def jsonEscapeChar (c : Char) : String :=
  if c = '"' then "\\\"" else if c = '\\' then "\\\\" else String.singleton c

/-- Model of `JSON.stringify` on a string. -/
def jsonString (s : String) : String :=
  "\"" ++ String.join (s.data.map jsonEscapeChar) ++ "\""

/-- Model of `JSON.stringify` on an array of strings (App.js line 105):
a JSON-style list literal with no spaces. -/
def jsonStringArray (vs : List String) : String :=
  "[" ++ String.intercalate "," (vs.map jsonString) ++ "]"

/-- Model of `Array.prototype.join(sep)` as used on the mapped entries
(App.js line 111). -/
def joinSep (sep : String) : List String → String
  | [] => ""
  | [x] => x
  | x :: y :: rest => x ++ sep ++ joinSep sep (y :: rest)

/-- The per-entry template string of `generateYamlConfig` (App.js lines
100-109).  Absent optional fields contribute an empty string, leaving the
literal separators of the template (newline plus four spaces) in place, exactly
as the JS template literal does.  The or-default on `rules.type` replaces a
falsy (absent or empty) type by the string literal string; the conditional on
`rules.regex` tests truthiness,
so an empty-string regex is also skipped; `rules.allowedValues` is an array and
arrays are always truthy, so presence alone decides; `min`/`max` are compared
against `undefined` with `!==`, so the value `0` is still emitted. -/
def entryStr (e : String × ValidationRule) : String :=
  "  " ++ e.1 ++ ":\n    type: " ++ (if e.2.type = "" then "string" else e.2.type)
    ++ "\n    "
    ++ (match e.2.regex with
        | some r => if r = "" then "" else "regex: \"" ++ r ++ "\""
        | none => "")
    ++ "\n    "
    ++ (match e.2.allowedValues with
        | some vs => "allowed_values: " ++ jsonStringArray vs
        | none => "")
    ++ "\n    "
    ++ (match e.2.min with
        | some m => "min: " ++ toString m
        | none => "")
    ++ "\n    "
    ++ (match e.2.max with
        | some m => "max: " ++ toString m
        | none => "")

/-- The fixed header comment block plus the `validations:` key of the template
literal (App.js lines 93-97). -/
def headerStr : String :=
  "# Validation Configuration\n# This file defines the validation rules for your data.\n# Each column in your data file should have an entry here.\n\nvalidations:\n"

/-- Model of `generateYamlConfig` (App.js lines 88-113): the header, then the
entries of the `config` object serialized in order and joined with newlines,
then the final newline of the template. -/
def generateYamlConfig (columnConfigs : List ColumnConfig) : String :=
  headerStr ++ joinSep "\n" ((toEntries columnConfigs).map entryStr) ++ "\n"

/-- Boolean test that `needle` starts `hay` (on character lists). -/
def listStartsWith : List Char → List Char → Bool
  | [], _ => true
  | _ :: _, [] => false
  | a :: as, b :: bs => a == b && listStartsWith as bs

/-- Boolean substring test on character lists. -/
def listHasSub (needle : List Char) : List Char → Bool
  | [] => listStartsWith needle []
  | c :: rest => listStartsWith needle (c :: rest) || listHasSub needle rest

/-- Boolean substring test on strings: `strHasSub n h` is `true` iff `n`
occurs contiguously in `h`. -/
def strHasSub (needle hay : String) : Bool := listHasSub needle.data hay.data

/-- States reachable from `initialState` by sequences of the three store
operations, subject to the preconditions of the spec: every
`removeColumn`/`renameColumn` index is in range (the operation returns `some`),
and every rename target is currently available. -/
inductive Reachable : AppState → Prop
  | init : Reachable initialState
  | add {s : AppState} : Reachable s → Reachable (addColumnConfig s)
  | remove {s s2 : AppState} {i : Nat} :
      Reachable s → removeColumnConfig s i = some s2 → Reachable s2
  | rename {s s2 : AppState} {i : Nat} {n : String} :
      Reachable s → n ∈ s.availableColumns → handleColumnSelect s i n = some s2 →
      Reachable s2

/-- Concrete one-config state used by witnesses. -/
def oneConfigState : AppState :=
  { columnConfigs := [{ name := "store_id", validation := { type := "string" } }]
    availableColumns := ["zone_name", "cluster_name"]
    configSaved := false }

/-- Concrete patch used by the claim-5 witness: sets the type, clears `min`. -/
def samplePatch : RulePatch :=
  { type := some "integer", min := some none }

/-- The single config of the claim-8 example. -/
def zoneConfig : ColumnConfig :=
  { name := "zone_name"
    validation := { type := "integer", min := some 0, max := some 10 } }

/-- Concrete config list with a duplicated name, used by the claim-9 witness. -/
def dupConfigs : List ColumnConfig :=
  [{ name := "store_id", validation := { type := "string" } },
   { name := "store_id", validation := { type := "integer" } }]

/-! Properties of the string order and of `jsSort`. -/

theorem lexLe_refl (l : List Char) : lexLe l l = true := by
  induction l with
  | nil => rfl
  | cons a as ih => simp [lexLe, ih]

theorem lexLe_cons_iff {a b : Char} {as bs : List Char} :
    lexLe (a :: as) (b :: bs) = true ↔
      (a.toNat < b.toNat ∨ (a.toNat = b.toNat ∧ lexLe as bs = true)) := by
  simp only [lexLe]
  by_cases h1 : a.toNat < b.toNat
  · simp [h1]
  · by_cases h2 : b.toNat < a.toNat
    · simp [h1, h2]
      intro h
      omega
    · have heq : a.toNat = b.toNat := by omega
      simp [h1, h2, heq]

theorem lexLe_total (l m : List Char) : lexLe l m = true ∨ lexLe m l = true := by
  induction l generalizing m with
  | nil => left; rfl
  | cons a as ih =>
    cases m with
    | nil => right; rfl
    | cons b bs =>
      rcases Nat.lt_trichotomy a.toNat b.toNat with h | h | h
      · left; exact lexLe_cons_iff.mpr (Or.inl h)
      · rcases ih bs with h2 | h2
        · left; exact lexLe_cons_iff.mpr (Or.inr ⟨h, h2⟩)
        · right; exact lexLe_cons_iff.mpr (Or.inr ⟨h.symm, h2⟩)
      · right; exact lexLe_cons_iff.mpr (Or.inl h)

theorem lexLe_trans (l m k : List Char) :
    lexLe l m = true → lexLe m k = true → lexLe l k = true := by
  induction l generalizing m k with
  | nil => intro _ _; rfl
  | cons a as ih =>
    intro h1 h2
    cases m with
    | nil => simp [lexLe] at h1
    | cons b bs =>
      cases k with
      | nil => simp [lexLe] at h2
      | cons c cs =>
        rcases lexLe_cons_iff.mp h1 with hab | ⟨hab, hrec1⟩ <;>
          rcases lexLe_cons_iff.mp h2 with hbc | ⟨hbc, hrec2⟩
        · exact lexLe_cons_iff.mpr (Or.inl (by omega))
        · exact lexLe_cons_iff.mpr (Or.inl (by omega))
        · exact lexLe_cons_iff.mpr (Or.inl (by omega))
        · exact lexLe_cons_iff.mpr (Or.inr ⟨by omega, ih bs cs hrec1 hrec2⟩)

theorem jsSort_perm (l : List String) : (jsSort l).Perm l :=
  List.perm_insertionSort _ l

theorem jsSort_sorted (l : List String) :
    (jsSort l).Sorted (fun a b => strLeB a b = true) :=
  @List.sorted_insertionSort String (fun a b => strLeB a b = true) _
    ⟨fun a b => lexLe_total a.data b.data⟩
    ⟨fun a b c => lexLe_trans a.data b.data c.data⟩ l

theorem jsSort_mem {x : String} {l : List String} : x ∈ jsSort l ↔ x ∈ l :=
  (jsSort_perm l).mem_iff

/-! Properties of `filterWithIndex`, relating the JS index-filter to
take/drop surgery on the list. -/

theorem filterWithIndex_ne {α : Type} (l : List α) (k : Nat) : ∀ j : Nat,
    filterWithIndex (fun i => i != k) l j =
      if k < j then l else l.take (k - j) ++ l.drop (k - j + 1) := by
  induction l with
  | nil => intro j; simp [filterWithIndex]
  | cons a as ih =>
    intro j
    by_cases hjk : j = k
    · subst hjk
      simp only [filterWithIndex, bne_self_eq_false, if_false, Bool.false_eq_true]
      rw [ih]
      simp [Nat.lt_succ_self, Nat.lt_irrefl]
    · have hne : (j != k) = true := by simp [bne_iff_ne]; exact hjk
      simp only [filterWithIndex, hne, if_true]
      rw [ih]
      by_cases h2 : k < j
      · have h3 : k < j + 1 := by omega
        simp [h2, h3]
      · have h4 : ¬ k < j + 1 := by omega
        obtain ⟨m, hm⟩ : ∃ m, k - j = m + 1 := ⟨k - (j + 1), by omega⟩
        have h5 : k - (j + 1) = m := by omega
        simp [h2, h4, hm, h5, List.take_succ_cons, List.drop_succ_cons]

theorem filterWithIndex_ne_zero {α : Type} (l : List α) (k : Nat) :
    filterWithIndex (fun i => i != k) l 0 = l.take k ++ l.drop (k + 1) := by
  simpa using filterWithIndex_ne l k 0

theorem perm_cons_take_drop {α : Type} (l : List α) (i : Nat) (h : i < l.length) :
    l.Perm (l.get ⟨i, h⟩ :: (l.take i ++ l.drop (i + 1))) := by
  conv_lhs => rw [← List.take_append_drop i l, ← List.getElem_cons_drop l i h]
  exact List.perm_middle

/-! The multiset invariant of the store: along every valid operation sequence
the configured names together with the available names are a permutation of
the hardcoded universe. -/

theorem universe_nodup : universeColumns.Nodup := by decide

open List in
theorem reachable_perm {s : AppState} (h : Reachable s) :
    ((s.columnConfigs.map ColumnConfig.name) ++ s.availableColumns).Perm universeColumns := by
  induction h with
  | init => simp [initialState]
  | add hr ih =>
    rename_i s
    cases hs : s.availableColumns with
    | nil => simpa [addColumnConfig, hs] using ih
    | cons n rest =>
      rw [hs] at ih
      simp only [addColumnConfig, hs, List.map_append, List.map_cons, List.map_nil,
        List.append_assoc, List.singleton_append]
      exact ih
  | remove hr heq ih =>
    rename_i s s2 i
    rw [removeColumnConfig] at heq
    split at heq
    case isTrue hlt =>
      simp only [Option.some.injEq] at heq
      subst heq
      simp only [filterWithIndex_ne_zero]
      have hlen : i < (s.columnConfigs.map ColumnConfig.name).length := by
        simpa using hlt
      have hname : (s.columnConfigs.get ⟨i, hlt⟩).name =
          (s.columnConfigs.map ColumnConfig.name).get ⟨i, hlen⟩ := by
        simp
      rw [List.map_append, List.map_take, List.map_drop]
      set N := s.columnConfigs.map ColumnConfig.name with hN
      calc (N.take i ++ N.drop (i + 1)) ++
            jsSort (s.availableColumns ++ [(s.columnConfigs.get ⟨i, hlt⟩).name])
          ~ (N.take i ++ N.drop (i + 1)) ++
            (s.availableColumns ++ [(s.columnConfigs.get ⟨i, hlt⟩).name]) :=
            List.Perm.append_left _ (jsSort_perm _)
        _ = ((N.take i ++ N.drop (i + 1)) ++ s.availableColumns) ++
            [(s.columnConfigs.get ⟨i, hlt⟩).name] := by simp [List.append_assoc]
        _ ~ (s.columnConfigs.get ⟨i, hlt⟩).name ::
            ((N.take i ++ N.drop (i + 1)) ++ s.availableColumns) :=
            List.perm_append_singleton _ _
        _ = (N.get ⟨i, hlen⟩ :: (N.take i ++ N.drop (i + 1))) ++ s.availableColumns := by
            rw [hname]; rfl
        _ ~ N ++ s.availableColumns :=
            List.Perm.append_right _ (perm_cons_take_drop N i hlen).symm
        _ ~ universeColumns := ih
    case isFalse => exact absurd heq (by simp)
  | rename hr hmem heq ih =>
    rename_i s s2 i n
    rw [handleColumnSelect] at heq
    split at heq
    case isTrue hlt =>
      simp only [Option.some.injEq] at heq
      subst heq
      have hnd : ((s.columnConfigs.map ColumnConfig.name) ++ s.availableColumns).Nodup :=
        ih.nodup_iff.mpr universe_nodup
      have havail : s.availableColumns.Nodup := (List.nodup_append.mp hnd).2.1
      have hfilter : s.availableColumns.filter (fun col => col != n) =
          s.availableColumns.erase n := (havail.erase_eq_filter n).symm
      simp only [List.map_set, hfilter]
      have hlen : i < (s.columnConfigs.map ColumnConfig.name).length := by
        simpa using hlt
      set N := s.columnConfigs.map ColumnConfig.name with hN
      have hname : (s.columnConfigs.get ⟨i, hlt⟩).name = N.get ⟨i, hlen⟩ := by
        simp [hN]
      rw [List.set_eq_take_cons_drop _ hlen]
      calc (N.take i ++ n :: N.drop (i + 1)) ++
            jsSort (s.availableColumns.erase n ++ [(s.columnConfigs.get ⟨i, hlt⟩).name])
          ~ (N.take i ++ n :: N.drop (i + 1)) ++
            (s.availableColumns.erase n ++ [(s.columnConfigs.get ⟨i, hlt⟩).name]) :=
            List.Perm.append_left _ (jsSort_perm _)
        _ ~ (n :: (N.take i ++ N.drop (i + 1))) ++
            ((s.columnConfigs.get ⟨i, hlt⟩).name :: s.availableColumns.erase n) :=
            List.Perm.append List.perm_middle (List.perm_append_singleton _ _)
        _ = n :: ((N.take i ++ N.drop (i + 1)) ++
            ((s.columnConfigs.get ⟨i, hlt⟩).name :: s.availableColumns.erase n)) := rfl
        _ ~ n :: ((s.columnConfigs.get ⟨i, hlt⟩).name ::
            ((N.take i ++ N.drop (i + 1)) ++ s.availableColumns.erase n)) :=
            List.Perm.cons _ List.perm_middle
        _ ~ (s.columnConfigs.get ⟨i, hlt⟩).name ::
            (n :: ((N.take i ++ N.drop (i + 1)) ++ s.availableColumns.erase n)) :=
            List.Perm.swap _ _ _
        _ ~ (N.get ⟨i, hlen⟩ :: (N.take i ++ N.drop (i + 1))) ++
            (n :: s.availableColumns.erase n) := by
            rw [hname]
            exact List.Perm.cons _ List.perm_middle.symm
        _ ~ N ++ (n :: s.availableColumns.erase n) :=
            List.Perm.append_right _ (perm_cons_take_drop N i hlen).symm
        _ ~ N ++ s.availableColumns :=
            List.Perm.append_left _ (List.perm_cons_erase hmem).symm
        _ ~ universeColumns := ih
    case isFalse => exact absurd heq (by simp)

/-! Substring machinery used to state containment facts about the emitted
document. -/

theorem listStartsWith_nil (l : List Char) : listStartsWith [] l = true := by
  cases l <;> rfl

theorem listStartsWith_append (n q : List Char) : listStartsWith n (n ++ q) = true := by
  induction n with
  | nil => exact listStartsWith_nil q
  | cons a as ih => simp [listStartsWith, ih]

theorem listStartsWith_extend (n h q : List Char) :
    listStartsWith n h = true → listStartsWith n (h ++ q) = true := by
  induction n generalizing h with
  | nil => intro _; exact listStartsWith_nil _
  | cons a as ih =>
    intro hs
    cases h with
    | nil => simp [listStartsWith] at hs
    | cons c cs =>
      simp only [listStartsWith, Bool.and_eq_true] at hs
      simp only [List.cons_append, listStartsWith, Bool.and_eq_true]
      exact ⟨hs.1, ih cs hs.2⟩

theorem listHasSub_of_startsWith (n h : List Char) :
    listStartsWith n h = true → listHasSub n h = true := by
  cases h with
  | nil => intro hs; exact hs
  | cons c cs => intro hs; simp [listHasSub, hs]

theorem listHasSub_nil_needle (l : List Char) : listHasSub [] l = true := by
  induction l with
  | nil => rfl
  | cons c cs ih => simp [listHasSub, listStartsWith_nil]

theorem listHasSub_append_right (n h q : List Char) :
    listHasSub n h = true → listHasSub n (h ++ q) = true := by
  induction h with
  | nil =>
    intro hs
    have hn : n = [] := by
      cases n with
      | nil => rfl
      | cons a as => simp [listHasSub, listStartsWith] at hs
    subst hn
    exact listHasSub_nil_needle q
  | cons c cs ih =>
    intro hs
    simp only [listHasSub, Bool.or_eq_true] at hs
    simp only [List.cons_append, listHasSub, Bool.or_eq_true]
    rcases hs with hs | hs
    · exact Or.inl (listStartsWith_extend n (c :: cs) q hs)
    · exact Or.inr (ih hs)

theorem listHasSub_append_left (n h p : List Char) :
    listHasSub n h = true → listHasSub n (p ++ h) = true := by
  induction p with
  | nil => intro hs; exact hs
  | cons c cs ih =>
    intro hs
    simp only [List.cons_append, listHasSub, Bool.or_eq_true]
    exact Or.inr (ih hs)

theorem strHasSub_self (n : String) : strHasSub n n = true := by
  rw [strHasSub]
  apply listHasSub_of_startsWith
  have := listStartsWith_append n.data []
  simpa using this

theorem strHasSub_appendl {n h : String} (q : String) :
    strHasSub n h = true → strHasSub n (h ++ q) = true := by
  intro hs
  rw [strHasSub, String.data_append]
  exact listHasSub_append_right _ _ _ hs

theorem strHasSub_appendr {n h : String} (p : String) :
    strHasSub n h = true → strHasSub n (p ++ h) = true := by
  intro hs
  rw [strHasSub, String.data_append]
  exact listHasSub_append_left _ _ _ hs

theorem strHasSub_joinSep (sep n x : String) : ∀ L : List String, x ∈ L →
    strHasSub n x = true → strHasSub n (joinSep sep L) = true := by
  intro L
  induction L with
  | nil => intro hx; cases hx
  | cons y ys ih =>
    intro hx hs
    rcases List.mem_cons.mp hx with rfl | hmem
    · cases ys with
      | nil => exact hs
      | cons z zs =>
        show strHasSub n (x ++ sep ++ joinSep sep (z :: zs)) = true
        exact strHasSub_appendl _ (strHasSub_appendl _ hs)
    · cases ys with
      | nil => cases hmem
      | cons z zs =>
        show strHasSub n (y ++ sep ++ joinSep sep (z :: zs)) = true
        exact strHasSub_appendr _ (ih hmem hs)

/-! Properties of the JS object construction in `generateYamlConfig`: at most
one entry per key, later assignments to the same key overwrite the value. -/

theorem insertEntry_filter_self (k : String) (v : ValidationRule) :
    ∀ m : List (String × ValidationRule),
    (m.filter (fun e => e.1 == k)).length ≤ 1 →
    (insertEntry m k v).filter (fun e => e.1 == k) = [(k, v)] := by
  intro m
  induction m with
  | nil => intro _; simp [insertEntry]
  | cons e rest ih =>
    intro hlen
    obtain ⟨k0, v0⟩ := e
    by_cases hk : k0 = k
    · subst hk
      simp only [insertEntry, if_pos rfl]
      simp only [List.filter_cons, beq_self_eq_true, if_pos] at hlen ⊢
      have hrest : rest.filter (fun e => e.1 == k0) = [] := by
        cases hfil : rest.filter (fun e => e.1 == k0) with
        | nil => rfl
        | cons a as =>
          rw [hfil] at hlen
          simp at hlen
      simp [hrest]
    · have hbeq : (k0 == k) = false := by simp [hk]
      simp only [insertEntry, if_neg hk]
      simp only [List.filter_cons, hbeq, Bool.false_eq_true, if_neg, if_false] at hlen ⊢
      exact ih hlen

theorem insertEntry_filter_ne (k k2 : String) (v : ValidationRule) (hne : k ≠ k2) :
    ∀ m : List (String × ValidationRule),
    (insertEntry m k v).filter (fun e => e.1 == k2) = m.filter (fun e => e.1 == k2) := by
  intro m
  have hbeq : (k == k2) = false := by simp [hne]
  induction m with
  | nil => simp [insertEntry, hbeq]
  | cons e rest ih =>
    obtain ⟨k0, v0⟩ := e
    by_cases hk : k0 = k
    · subst hk
      simp [insertEntry, List.filter_cons, hbeq]
    · simp only [insertEntry, if_neg hk, List.filter_cons]
      by_cases h2 : (k0 == k2) = true
      · simp [h2, ih]
      · simp only [Bool.not_eq_true] at h2
        simp [h2, ih]

/-! Claim theorems. -/

/-- Claim C1, counterexample to the stated universe size: the claim speaks of a
fixed 23-name universe, but already after the empty operation sequence (the
initial state) the union of the configured names and the available names
consists of 24 distinct names, so it cannot equal any 23-name universe. -/
theorem claim1_counterexample :
    ((initialState.columnConfigs.map ColumnConfig.name) ++
        initialState.availableColumns).toFinset.card = 24 ∧
    ((initialState.columnConfigs.map ColumnConfig.name) ++
        initialState.availableColumns).toFinset.card ≠ 23 := by
  decide

/-- Claim C1 (amended: the universe has 24 names, not 23): for every sequence
of addColumn / removeColumn / renameColumn operations from the initial state,
with every removeColumn and renameColumn index in range and every renameColumn
target currently available, after each operation the set of configured names
and the set of available names are disjoint and their union is the fixed
24-name universe of column names. -/
theorem claim1_disjoint_union {s : AppState} (h : Reachable s) :
    (s.columnConfigs.map ColumnConfig.name).Disjoint s.availableColumns ∧
    (∀ n : String,
      (n ∈ s.columnConfigs.map ColumnConfig.name ∨ n ∈ s.availableColumns) ↔
        n ∈ universeColumns) := by
  have hperm := reachable_perm h
  have hnd : ((s.columnConfigs.map ColumnConfig.name) ++ s.availableColumns).Nodup :=
    hperm.nodup_iff.mpr universe_nodup
  constructor
  · exact (List.nodup_append.mp hnd).2.2
  · intro n
    rw [← hperm.mem_iff]
    exact List.mem_append.symm

/-- Witness for claim C1 at the initial state (the empty operation sequence). -/
theorem claim1_witness :
    (initialState.columnConfigs.map ColumnConfig.name).Disjoint
      initialState.availableColumns ∧
    (∀ n : String,
      (n ∈ initialState.columnConfigs.map ColumnConfig.name ∨
          n ∈ initialState.availableColumns) ↔
        n ∈ universeColumns) :=
  claim1_disjoint_union Reachable.init

/-- Claim C2, counterexample: removing at index 0 of the initial state (whose
config list is empty, so 0 is out of range) does not complete as a no-op with
the state unchanged; the JS code throws a TypeError reading `.name` of
`undefined` (modelled by `none`), and that exception propagates to the caller. -/
theorem claim2_counterexample :
    removeColumnConfig initialState 0 = none ∧
    removeColumnConfig initialState 0 ≠ some initialState := by
  decide

/-- Claim C2 (amended): for every state and out-of-range index, removeColumn
throws before any state update is committed — the state is left unchanged (no
`setState` happens), but the exception does propagate to the caller rather than
being swallowed.  `none` models the thrown TypeError. -/
theorem claim2_throws (s : AppState) (i : Nat) (h : s.columnConfigs.length ≤ i) :
    removeColumnConfig s i = none := by
  rw [removeColumnConfig, dif_neg]
  omega

/-- Witness for claim C2: removing at index 3 of the initial state throws. -/
theorem claim2_witness : removeColumnConfig initialState 3 = none :=
  claim2_throws initialState 3 (by decide)

/-- Claim C3, the code-side divergence: the UI hands the store the index of a
row of the name-sorted display list (App.js line 265 maps over
`sortedColumnConfigs`, line 312 calls `removeColumnConfig(index)` with that
row index), but `removeColumnConfig` resolves the index against the
insertion-ordered `state.columnConfigs`.  After three addColumn operations the
insertion order is [store_id, zone_name, machine_project_id] while the sorted
display order starts with machine_project_id; removing at display index 0
removes store_id, not the displayed machine_project_id. -/
theorem claim3_sorted_index_bug :
    (addColumnConfig (addColumnConfig (addColumnConfig
        initialState))).columnConfigs.map ColumnConfig.name =
      ["store_id", "zone_name", "machine_project_id"] ∧
    ((sortedColumnConfigs (addColumnConfig (addColumnConfig (addColumnConfig
        initialState)))).map ColumnConfig.name).head? = some "machine_project_id" ∧
    (removeColumnConfig (addColumnConfig (addColumnConfig (addColumnConfig
        initialState))) 0).map (fun s => s.columnConfigs.map ColumnConfig.name) =
      some ["zone_name", "machine_project_id"] := by
  decide

/-- Claim C4: if any column is available, addColumn claims the first available
name, appends a config for it whose ValidationRule is `type = string` with no
regex, allowedValues, min or max, and drops that name from the front of
AvailableColumns; if none is available, the state is unchanged. -/
theorem claim4_addColumn (s : AppState) :
    (∀ n rest, s.availableColumns = n :: rest →
      addColumnConfig s =
        { s with
          columnConfigs := s.columnConfigs ++
            [{ name := n,
               validation :=
                 { type := "string", regex := none, allowedValues := none,
                   min := none, max := none } }]
          availableColumns := rest
          configSaved := false }) ∧
    (s.availableColumns = [] → addColumnConfig s = s) := by
  constructor
  · intro n rest hav
    simp [addColumnConfig, hav]
  · intro hav
    simp [addColumnConfig, hav]

/-- Witness for claim C4 at the initial state. -/
theorem claim4_witness :
    addColumnConfig initialState =
      { initialState with
        columnConfigs := initialState.columnConfigs ++
          [{ name := "store_id",
             validation :=
               { type := "string", regex := none, allowedValues := none,
                 min := none, max := none } }]
        availableColumns := universeColumns.tail
        configSaved := false } :=
  (claim4_addColumn initialState).1 "store_id" universeColumns.tail rfl

/-- Claim C5: for every state, in-range index and partial rule,
updateValidation shallowly merges the patch into the rule at that index: every
field given in the patch entirely replaces the old value, every omitted field
keeps its previous value; the config keeps its name, every other config is
untouched, and AvailableColumns is unchanged. -/
theorem claim5_updateValidation (s : AppState) (i : Nat) (p : RulePatch)
    (h : i < s.columnConfigs.length) :
    ∃ s2, updateValidation s i p = some s2 ∧
      s2.availableColumns = s.availableColumns ∧
      s2.columnConfigs.length = s.columnConfigs.length ∧
      (∀ j, j ≠ i → s2.columnConfigs[j]? = s.columnConfigs[j]?) ∧
      s2.columnConfigs[i]? = some
        { name := (s.columnConfigs.get ⟨i, h⟩).name
          validation := mergeValidation (s.columnConfigs.get ⟨i, h⟩).validation p } ∧
      (∀ old : ValidationRule,
        (∀ t, p.type = some t → (mergeValidation old p).type = t) ∧
        (p.type = none → (mergeValidation old p).type = old.type) ∧
        (∀ v, p.regex = some v → (mergeValidation old p).regex = v) ∧
        (p.regex = none → (mergeValidation old p).regex = old.regex) ∧
        (∀ v, p.allowedValues = some v → (mergeValidation old p).allowedValues = v) ∧
        (p.allowedValues = none → (mergeValidation old p).allowedValues = old.allowedValues) ∧
        (∀ v, p.min = some v → (mergeValidation old p).min = v) ∧
        (p.min = none → (mergeValidation old p).min = old.min) ∧
        (∀ v, p.max = some v → (mergeValidation old p).max = v) ∧
        (p.max = none → (mergeValidation old p).max = old.max)) := by
  refine ⟨{ s with
      columnConfigs := s.columnConfigs.set i
        { name := (s.columnConfigs.get ⟨i, h⟩).name
          validation := mergeValidation (s.columnConfigs.get ⟨i, h⟩).validation p }
      configSaved := false }, ?_, rfl, by simp, ?_, ?_, ?_⟩
  · rw [updateValidation, updateColumnConfig, dif_pos h]
    rfl
  · intro j hj
    exact List.getElem?_set_ne (Ne.symm hj)
  · simp only []
    rw [List.getElem?_set_self (by omega)]
  · intro old
    refine ⟨?_, ?_, ?_, ?_, ?_, ?_, ?_, ?_, ?_, ?_⟩ <;>
      first
        | (intro v hv; simp [mergeValidation, hv])
        | (intro hv; simp [mergeValidation, hv])

/-- Witness for claim C5: update the single config of `oneConfigState` with
`samplePatch` (sets the type to integer and clears min). -/
theorem claim5_witness :
    ∃ s2, updateValidation oneConfigState 0 samplePatch = some s2 ∧
      s2.availableColumns = oneConfigState.availableColumns ∧
      s2.columnConfigs.length = oneConfigState.columnConfigs.length ∧
      (∀ j, j ≠ 0 → s2.columnConfigs[j]? = oneConfigState.columnConfigs[j]?) ∧
      s2.columnConfigs[0]? = some
        { name := (oneConfigState.columnConfigs.get ⟨0, by decide⟩).name
          validation := mergeValidation
            (oneConfigState.columnConfigs.get ⟨0, by decide⟩).validation samplePatch } ∧
      (∀ old : ValidationRule,
        (∀ t, samplePatch.type = some t → (mergeValidation old samplePatch).type = t) ∧
        (samplePatch.type = none → (mergeValidation old samplePatch).type = old.type) ∧
        (∀ v, samplePatch.regex = some v → (mergeValidation old samplePatch).regex = v) ∧
        (samplePatch.regex = none → (mergeValidation old samplePatch).regex = old.regex) ∧
        (∀ v, samplePatch.allowedValues = some v →
          (mergeValidation old samplePatch).allowedValues = v) ∧
        (samplePatch.allowedValues = none →
          (mergeValidation old samplePatch).allowedValues = old.allowedValues) ∧
        (∀ v, samplePatch.min = some v → (mergeValidation old samplePatch).min = v) ∧
        (samplePatch.min = none → (mergeValidation old samplePatch).min = old.min) ∧
        (∀ v, samplePatch.max = some v → (mergeValidation old samplePatch).max = v) ∧
        (samplePatch.max = none → (mergeValidation old samplePatch).max = old.max)) :=
  claim5_updateValidation oneConfigState 0 samplePatch (by decide)

/-- Claim C6: renaming the config at an in-range index to a name currently
available (and not claimed by any config) reassigns that config to the new
name with its ValidationRule intact, leaves every other config untouched, and
swaps set membership in AvailableColumns exactly: the new name leaves the
available set, the old name enters it, everything else is unchanged. -/
theorem claim6_renameColumn (s : AppState) (i : Nat) (newName : String)
    (h : i < s.columnConfigs.length)
    (hmem : newName ∈ s.availableColumns)
    (hfree : newName ∉ s.columnConfigs.map ColumnConfig.name) :
    ∃ s2, handleColumnSelect s i newName = some s2 ∧
      s2.columnConfigs[i]? = some
        { name := newName, validation := (s.columnConfigs.get ⟨i, h⟩).validation } ∧
      (∀ j, j ≠ i → s2.columnConfigs[j]? = s.columnConfigs[j]?) ∧
      newName ∉ s2.availableColumns ∧
      (s.columnConfigs.get ⟨i, h⟩).name ∈ s2.availableColumns ∧
      (∀ x, x ∈ s2.availableColumns ↔
        (x = (s.columnConfigs.get ⟨i, h⟩).name ∨
          (x ∈ s.availableColumns ∧ x ≠ newName))) := by
  have hmemchar : ∀ x : String,
      x ∈ jsSort ((s.availableColumns.filter (fun col => col != newName)) ++
          [(s.columnConfigs.get ⟨i, h⟩).name]) ↔
        (x = (s.columnConfigs.get ⟨i, h⟩).name ∨
          (x ∈ s.availableColumns ∧ x ≠ newName)) := by
    intro x
    rw [jsSort_mem, List.mem_append]
    simp only [List.mem_filter, bne_iff_ne, List.mem_singleton]
    tauto
  have hold_ne : (s.columnConfigs.get ⟨i, h⟩).name ≠ newName := by
    intro hcon
    apply hfree
    rw [← hcon]
    exact List.mem_map_of_mem ColumnConfig.name (s.columnConfigs.get_mem i h)
  refine ⟨{ s with
      columnConfigs := s.columnConfigs.set i
        { s.columnConfigs.get ⟨i, h⟩ with name := newName }
      availableColumns :=
        jsSort ((s.availableColumns.filter (fun col => col != newName)) ++
          [(s.columnConfigs.get ⟨i, h⟩).name])
      configSaved := false }, ?_, ?_, ?_, ?_, ?_, ?_⟩
  · rw [handleColumnSelect, dif_pos h]
  · simp only []
    rw [List.getElem?_set_self (by omega)]
  · intro j hj
    exact List.getElem?_set_ne (Ne.symm hj)
  · simp only []
    rw [hmemchar]
    rintro (hcon | ⟨_, hcon⟩)
    · exact hold_ne hcon.symm
    · exact hcon rfl
  · simp only []
    rw [hmemchar]
    exact Or.inl rfl
  · exact hmemchar

/-- Witness for claim C6: rename the single config of `oneConfigState` from
store_id to the available zone_name. -/
theorem claim6_witness :
    ∃ s2, handleColumnSelect oneConfigState 0 "zone_name" = some s2 ∧
      s2.columnConfigs[0]? = some
        { name := "zone_name",
          validation := (oneConfigState.columnConfigs.get ⟨0, by decide⟩).validation } ∧
      (∀ j, j ≠ 0 → s2.columnConfigs[j]? = oneConfigState.columnConfigs[j]?) ∧
      "zone_name" ∉ s2.availableColumns ∧
      (oneConfigState.columnConfigs.get ⟨0, by decide⟩).name ∈ s2.availableColumns ∧
      (∀ x, x ∈ s2.availableColumns ↔
        (x = (oneConfigState.columnConfigs.get ⟨0, by decide⟩).name ∨
          (x ∈ oneConfigState.availableColumns ∧ x ≠ "zone_name"))) :=
  claim6_renameColumn oneConfigState 0 "zone_name" (by decide) (by decide) (by decide)

/-- Claim C7: the emitter is total (it is a plain function producing a string
for every config list), and on the empty list it produces exactly the fixed
header comment block followed by an empty `validations:` section with no
column entries. -/
theorem claim7_emit_empty :
    (∀ cs : List ColumnConfig, ∃ out : String, generateYamlConfig cs = out) ∧
    generateYamlConfig [] =
      "# Validation Configuration\n# This file defines the validation rules for your data.\n# Each column in your data file should have an entry here.\n\nvalidations:\n\n" := by
  constructor
  · intro cs
    exact ⟨generateYamlConfig cs, rfl⟩
  · decide

/-- Claim C8: every entry of the serialized config object contributes a
mapping entry keyed by its column name with a `type` line (defaulted to
string when the type is falsy), a quoted `regex` line when a non-empty regex
is present, an `allowed_values` line carrying the JSON list literal when
allowedValues is present, and `min`/`max` lines exactly when those values are
present — in particular the integral value 0 is emitted, not dropped.  The
zone_name example emits `type: integer`, `min: 0`, `max: 10` and contains no
`regex` or `allowed_values` text at all. -/
theorem claim8_emit_fields :
    (∀ (cs : List ColumnConfig) (name : String) (r : ValidationRule),
      (name, r) ∈ toEntries cs →
      strHasSub ("  " ++ name ++ ":\n    type: " ++
          (if r.type = "" then "string" else r.type)) (generateYamlConfig cs) = true ∧
      (∀ rg, r.regex = some rg → rg ≠ "" →
        strHasSub ("regex: \"" ++ rg ++ "\"") (generateYamlConfig cs) = true) ∧
      (∀ vs, r.allowedValues = some vs →
        strHasSub ("allowed_values: " ++ jsonStringArray vs) (generateYamlConfig cs) = true) ∧
      (∀ m, r.min = some m →
        strHasSub ("min: " ++ toString m) (generateYamlConfig cs) = true) ∧
      (∀ m, r.max = some m →
        strHasSub ("max: " ++ toString m) (generateYamlConfig cs) = true)) ∧
    (generateYamlConfig [zoneConfig] =
      "# Validation Configuration\n# This file defines the validation rules for your data.\n# Each column in your data file should have an entry here.\n\nvalidations:\n  zone_name:\n    type: integer\n    \n    \n    min: 0\n    max: 10\n" ∧
     strHasSub "regex" (generateYamlConfig [zoneConfig]) = false ∧
     strHasSub "allowed_values" (generateYamlConfig [zoneConfig]) = false ∧
     strHasSub "zone_name:" (generateYamlConfig [zoneConfig]) = true ∧
     strHasSub "type: integer" (generateYamlConfig [zoneConfig]) = true ∧
     strHasSub "min: 0" (generateYamlConfig [zoneConfig]) = true ∧
     strHasSub "max: 10" (generateYamlConfig [zoneConfig]) = true) := by
  constructor
  · intro cs name r hmem
    have hout : ∀ needle : String,
        strHasSub needle (entryStr (name, r)) = true →
        strHasSub needle (generateYamlConfig cs) = true := by
      intro needle hsub
      rw [generateYamlConfig]
      apply strHasSub_appendl
      apply strHasSub_appendr
      exact strHasSub_joinSep "\n" needle (entryStr (name, r)) _
        (List.mem_map_of_mem entryStr hmem) hsub
    refine ⟨?_, ?_, ?_, ?_, ?_⟩
    · apply hout
      simp only [entryStr]
      apply strHasSub_appendl
      apply strHasSub_appendl
      apply strHasSub_appendl
      apply strHasSub_appendl
      apply strHasSub_appendl
      apply strHasSub_appendl
      apply strHasSub_appendl
      apply strHasSub_appendl
      exact strHasSub_self _
    · intro rg hrg hne
      apply hout
      simp only [entryStr, hrg, if_neg hne]
      apply strHasSub_appendl
      apply strHasSub_appendl
      apply strHasSub_appendl
      apply strHasSub_appendl
      apply strHasSub_appendl
      apply strHasSub_appendl
      apply strHasSub_appendr
      exact strHasSub_self _
    · intro vs hvs
      apply hout
      simp only [entryStr, hvs]
      apply strHasSub_appendl
      apply strHasSub_appendl
      apply strHasSub_appendl
      apply strHasSub_appendl
      apply strHasSub_appendr
      exact strHasSub_self _
    · intro m hm
      apply hout
      simp only [entryStr, hm]
      apply strHasSub_appendl
      apply strHasSub_appendl
      apply strHasSub_appendr
      exact strHasSub_self _
    · intro m hm
      apply hout
      simp only [entryStr, hm]
      apply strHasSub_appendr
      exact strHasSub_self _
  · refine ⟨by decide, by decide, by decide, by decide, by decide, by decide, by decide⟩

/-- Witness for claim C8: the key-and-type needle of the zone_name entry
occurs in the emitted document. -/
theorem claim8_witness :
    strHasSub ("  " ++ "zone_name" ++ ":\n    type: " ++
        (if zoneConfig.validation.type = "" then "string" else zoneConfig.validation.type))
      (generateYamlConfig [zoneConfig]) = true :=
  (claim8_emit_fields.1 [zoneConfig] "zone_name" zoneConfig.validation (by decide)).1

/-- Folding the config list into the keyed JS object: the entries filtered to
one key are determined by the last config carrying that key (or, when no
config carries it, by the accumulator). -/
theorem toEntriesAux_filter (k : String) :
    ∀ (cs : List ColumnConfig) (m : List (String × ValidationRule)),
    (m.filter (fun e => e.1 == k)).length ≤ 1 →
    ((cs.foldl (fun acc c => insertEntry acc c.name c.validation) m).filter
        (fun e => e.1 == k)) =
      (match (cs.filter (fun c => c.name == k)).getLast? with
       | some c => [(k, c.validation)]
       | none => m.filter (fun e => e.1 == k)) := by
  intro cs
  induction cs with
  | nil => intro m hm; simp
  | cons c cs ih =>
    intro m hm
    simp only [List.foldl_cons]
    by_cases hck : c.name = k
    · have hbeq : (c.name == k) = true := by simp [hck]
      have hself : ((insertEntry m c.name c.validation).filter
          (fun e => e.1 == k)) = [(k, c.validation)] := by
        rw [hck]
        exact insertEntry_filter_self k c.validation m hm
      have hm2 : ((insertEntry m c.name c.validation).filter
          (fun e => e.1 == k)).length ≤ 1 := by
        rw [hself]
        simp
      rw [ih _ hm2]
      rw [List.filter_cons, hbeq, if_pos rfl]
      cases hfil : cs.filter (fun c => c.name == k) with
      | nil =>
        simp [hself]
      | cons x xs =>
        rw [List.getLast?_cons_cons]
        cases hl2 : (x :: xs).getLast? with
        | none => exact absurd (List.getLast?_eq_none_iff.mp hl2) (by simp)
        | some c2 => rfl
    · have hbeq : (c.name == k) = false := by simp [hck]
      have hother : ((insertEntry m c.name c.validation).filter
          (fun e => e.1 == k)) = m.filter (fun e => e.1 == k) :=
        insertEntry_filter_ne c.name k c.validation hck m
      have hm2 : ((insertEntry m c.name c.validation).filter
          (fun e => e.1 == k)).length ≤ 1 := by
        rw [hother]; exact hm
      rw [ih _ hm2, List.filter_cons, hbeq]
      simp only [Bool.false_eq_true, if_false, hother]

/-- Claim C9: when two or more configs share a name, the keyed object built by
the emitter holds exactly one entry for that name, and its value is the
ValidationRule of the last such config in the list; the document then
serializes exactly these entries. -/
theorem claim9_duplicates (cs : List ColumnConfig) (k : String)
    (hdup : 2 ≤ (cs.filter (fun c => c.name == k)).length) :
    ∃ c, (cs.filter (fun c => c.name == k)).getLast? = some c ∧
      (toEntries cs).filter (fun e => e.1 == k) = [(k, c.validation)] ∧
      generateYamlConfig cs =
        headerStr ++ joinSep "\n" ((toEntries cs).map entryStr) ++ "\n" := by
  have hne : cs.filter (fun c => c.name == k) ≠ [] := by
    intro h0
    rw [h0] at hdup
    simp at hdup
  obtain ⟨c, hc⟩ : ∃ c, (cs.filter (fun c => c.name == k)).getLast? = some c := by
    cases hl : (cs.filter (fun c => c.name == k)).getLast? with
    | none => exact absurd (List.getLast?_eq_none_iff.mp hl) hne
    | some c => exact ⟨c, rfl⟩
  refine ⟨c, hc, ?_, rfl⟩
  have h := toEntriesAux_filter k cs [] (by simp)
  rw [hc] at h
  simpa [toEntries] using h

/-- Witness for claim C9 on `dupConfigs` (store_id occurs twice; the second
occurrence has type integer). -/
theorem claim9_witness :
    ∃ c, (dupConfigs.filter (fun c => c.name == "store_id")).getLast? = some c ∧
      (toEntries dupConfigs).filter (fun e => e.1 == "store_id") =
        [("store_id", c.validation)] ∧
      generateYamlConfig dupConfigs =
        headerStr ++ joinSep "\n" ((toEntries dupConfigs).map entryStr) ++ "\n" :=
  claim9_duplicates dupConfigs "store_id" (by decide)

/-- Claim C10: removeColumn and renameColumn re-sort AvailableColumns (their
result is always sorted ascending in the lexicographic string order), while
addColumn merely drops the first element and keeps the rest in order;
consequently, after a removeColumn the name the next addColumn claims is a
lexicographically smallest available name. -/
theorem claim10_sorted_available (s : AppState) (i : Nat) (n : String) :
    (∀ s2, removeColumnConfig s i = some s2 →
      s2.availableColumns.Sorted (fun a b => strLeB a b = true)) ∧
    (∀ s2, handleColumnSelect s i n = some s2 →
      s2.availableColumns.Sorted (fun a b => strLeB a b = true)) ∧
    (addColumnConfig s).availableColumns = s.availableColumns.tail ∧
    (∀ s2, removeColumnConfig s i = some s2 →
      ∃ c, (addColumnConfig s2).columnConfigs = s2.columnConfigs ++ [c] ∧
        c.validation = { type := "string", regex := none, allowedValues := none,
                         min := none, max := none } ∧
        ∀ x ∈ s2.availableColumns, strLeB c.name x = true) := by
  refine ⟨?_, ?_, ?_, ?_⟩
  · intro s2 h2
    rw [removeColumnConfig] at h2
    split at h2
    case isTrue hlt =>
      simp only [Option.some.injEq] at h2
      subst h2
      exact jsSort_sorted _
    case isFalse => exact absurd h2 (by simp)
  · intro s2 h2
    rw [handleColumnSelect] at h2
    split at h2
    case isTrue hlt =>
      simp only [Option.some.injEq] at h2
      subst h2
      exact jsSort_sorted _
    case isFalse => exact absurd h2 (by simp)
  · cases hs : s.availableColumns <;> simp [addColumnConfig, hs]
  · intro s2 h2
    rw [removeColumnConfig] at h2
    split at h2
    case isTrue hlt =>
      simp only [Option.some.injEq] at h2
      subst h2
      have hsorted := jsSort_sorted
        (s.availableColumns ++ [(s.columnConfigs.get ⟨i, hlt⟩).name])
      have hlen : (jsSort (s.availableColumns ++
          [(s.columnConfigs.get ⟨i, hlt⟩).name])).length =
          s.availableColumns.length + 1 := by
        rw [(jsSort_perm _).length_eq]
        simp
      cases hA : jsSort (s.availableColumns ++
          [(s.columnConfigs.get ⟨i, hlt⟩).name]) with
      | nil => rw [hA] at hlen; simp at hlen
      | cons hd tl =>
        rw [hA] at hsorted
        refine ⟨{ name := hd, validation := { type := "string" } }, ?_, rfl, ?_⟩
        · simp only [addColumnConfig, hA]
        · intro x hx
          simp only [hA] at hx
          rcases List.mem_cons.mp hx with rfl | hx2
          · exact lexLe_refl _
          · exact List.rel_of_sorted_cons hsorted x hx2
    case isFalse => exact absurd h2 (by simp)

/-- Witness for claim C10: removing the single config of `oneConfigState`
yields a sorted available list. -/
theorem claim10_witness :
    ∃ s2, removeColumnConfig oneConfigState 0 = some s2 ∧
      s2.availableColumns.Sorted (fun a b => strLeB a b = true) := by
  refine ⟨{ columnConfigs := []
            availableColumns := ["cluster_name", "store_id", "zone_name"]
            configSaved := false }, by decide, ?_⟩
  exact (claim10_sorted_available oneConfigState 0 "zone_name").1 _ (by decide)
